import Mathlib

/-!
# Verification of the auto-crawler's crawl-orchestration core

Shallow embedding of the resumable-pagination crawler:
`AutoReviewCrawler` (`app/services/crawler.py`), `DBRepository`
(`app/repositories/db_repo.py`), the `Characteristic`/`DriveType`
enumerations (`app/models/review.py`) and the relative-date resolver
(`app/services/date_parser.py`).  Python integers are modelled as `Int`
(page indices may go negative under drift), Python lists as `List`,
Python's `None`-able values as `Option`, and raised exceptions as
`Except`/`Option` results.  External collaborators (the network, the DOM
library, the SQL engine, `datetime` arithmetic) appear as explicit
parameters or as small models of exactly the behaviour the crawler's
control flow depends on.
-/

namespace AutoCrawler

/-! ## `AutoReviewCrawler.round_robin_split`

Source (`crawler.py` lines 62-67):
```
buckets = [[] for _ in range(workers)]
for i, item in enumerate(pages_to_crawl):
    buckets[i % workers].append(item)
return buckets
```
The enumerated loop is embedded as `round_robin_go` carrying the running
index `i`. -/

def round_robin_go (workers : Nat) : List (List Int) → Nat → List Int → List (List Int)
  | bs, _, [] => bs
  | bs, i, x :: xs =>
      round_robin_go workers (bs.set (i % workers) (bs.getD (i % workers) [] ++ [x])) (i + 1) xs

def round_robin_split (pages : List Int) (workers : Nat) : List (List Int) :=
  round_robin_go workers (List.replicate workers []) 0 pages

/-- The sublist of `xs` made of the elements whose enumeration index
(counting from `i`) is congruent to `j` modulo `workers`.  Used only to
state what `round_robin_split` computes. -/
def pick (workers j : Nat) : Nat → List Int → List Int
  | _, [] => []
  | i, x :: xs => (if i % workers = j then [x] else []) ++ pick workers j (i + 1) xs

theorem round_robin_go_length (workers : Nat) :
    ∀ (xs : List Int) (bs : List (List Int)) (i : Nat),
      (round_robin_go workers bs i xs).length = bs.length := by
  intro xs
  induction xs with
  | nil => intro bs i; rfl
  | cons x xs ih =>
      intro bs i
      simp only [round_robin_go, ih, List.length_set]

theorem round_robin_go_getD (workers : Nat) (hW : 0 < workers) :
    ∀ (xs : List Int) (bs : List (List Int)) (i : Nat), bs.length = workers →
      ∀ j, j < workers →
        (round_robin_go workers bs i xs).getD j [] = bs.getD j [] ++ pick workers j i xs := by
  intro xs
  induction xs with
  | nil =>
      intro bs i hbs j hj
      simp [round_robin_go, pick]
  | cons x xs ih =>
      intro bs i hbs j hj
      have hidx : i % workers < bs.length := by
        rw [hbs]; exact Nat.mod_lt _ hW
      have hset : (bs.set (i % workers) (bs.getD (i % workers) [] ++ [x])).length = workers := by
        rw [List.length_set, hbs]
      rw [round_robin_go, ih _ _ hset j hj, pick]
      by_cases hmod : i % workers = j
      · subst hmod
        have hgd : bs.getD (i % workers) [] = bs.get ⟨i % workers, hidx⟩ := by
          rw [List.getD_eq_getElem?_getD, List.getElem?_eq_getElem hidx]
          rfl
        have : (bs.set (i % workers) (bs.getD (i % workers) [] ++ [x])).getD (i % workers) [] =
            bs.getD (i % workers) [] ++ [x] := by
          rw [List.getD_eq_getElem?_getD, List.getElem?_set_self (by rw [hbs]; exact Nat.mod_lt _ hW)]
          rfl
        rw [this]
        simp
      · have : (bs.set (i % workers) (bs.getD (i % workers) [] ++ [x])).getD j [] =
            bs.getD j [] := by
          rw [List.getD_eq_getElem?_getD, List.getElem?_set_ne hmod, ← List.getD_eq_getElem?_getD]
        rw [this]
        simp [hmod]

theorem round_robin_split_getD (pages : List Int) (workers : Nat) (hW : 0 < workers)
    (j : Nat) (hj : j < workers) :
    (round_robin_split pages workers).getD j [] = pick workers j 0 pages := by
  have := round_robin_go_getD workers hW pages (List.replicate workers []) 0
    (List.length_replicate _ _) j hj
  rw [round_robin_split, this, List.getD_eq_getElem?_getD, List.getElem?_replicate]
  simp [hj]

theorem pick_sublist (workers j : Nat) : ∀ (i : Nat) (xs : List Int),
    (pick workers j i xs).Sublist xs := by
  intro i xs
  induction xs generalizing i with
  | nil => simp [pick]
  | cons x xs ih =>
      rw [pick]
      by_cases hmod : i % workers = j
      · simp only [hmod, if_pos rfl]
        exact (ih (i + 1)).cons₂ x
      · simp only [if_neg hmod, List.nil_append]
        exact (ih (i + 1)).cons x

theorem sum_range_ite_add (c : Nat) (g : Nat → Nat) :
    ∀ (W j0 : Nat), j0 < W →
      ((List.range W).map fun j => (if j0 = j then c else 0) + g j).sum
        = c + ((List.range W).map g).sum := by
  intro W
  induction W with
  | zero => intro j0 hj; exact absurd hj (Nat.not_lt_zero _)
  | succ n ih =>
      intro j0 hj
      rw [List.range_succ, List.map_append, List.map_append, List.sum_append, List.sum_append]
      rcases Nat.lt_succ_iff_lt_or_eq.mp hj with h | h
      · have hne : j0 ≠ n := Nat.ne_of_lt h
        rw [ih j0 h]
        simp [hne]
        omega
      · subst h
        have hnot : ∀ j ∈ List.range j0, j0 ≠ j := by
          intro j hjm
          exact (Nat.ne_of_gt (List.mem_range.mp hjm))
        have hmapeq : (List.range j0).map (fun j => (if j0 = j then c else 0) + g j)
            = (List.range j0).map g := by
          apply List.map_congr_left
          intro j hjm
          simp [hnot j hjm]
        rw [hmapeq]
        simp
        omega

theorem pick_count (workers : Nat) (hW : 0 < workers) (x : Int) :
    ∀ (xs : List Int) (i : Nat),
      ((List.range workers).map fun j => (pick workers j i xs).count x).sum = xs.count x := by
  intro xs
  induction xs with
  | nil => intro i; simp [pick]
  | cons y ys ih =>
      intro i
      have hsplit : ∀ j, (pick workers j i (y :: ys)).count x
          = (if i % workers = j then (if y = x then 1 else 0) else 0)
            + (pick workers j (i + 1) ys).count x := by
        intro j
        rw [pick]
        by_cases hmod : i % workers = j
        · by_cases hyx : y = x
          · simp [hmod, hyx, List.count_cons]
            omega
          · simp [hmod, hyx, List.count_cons]
        · simp [hmod]
      have hmapeq : (List.range workers).map (fun j => (pick workers j i (y :: ys)).count x)
          = (List.range workers).map (fun j =>
              (if i % workers = j then (if y = x then 1 else 0) else 0)
                + (pick workers j (i + 1) ys).count x) := by
        apply List.map_congr_left
        intro j _
        exact hsplit j
      rw [hmapeq, sum_range_ite_add _ _ workers (i % workers) (Nat.mod_lt _ hW), ih (i + 1),
        List.count_cons]
      by_cases hyx : y = x
      · simp [hyx, Nat.add_comm]
      · simp [hyx]

theorem round_robin_split_eq_map_pick (pages : List Int) (workers : Nat) (hW : 0 < workers) :
    round_robin_split pages workers = (List.range workers).map fun j => pick workers j 0 pages := by
  have hlen : (round_robin_split pages workers).length = workers := by
    rw [round_robin_split, round_robin_go_length, List.length_replicate]
  apply List.ext_getElem?
  intro j
  by_cases hj : j < workers
  · have h1 : (round_robin_split pages workers)[j]? = some (pick workers j 0 pages) := by
      rw [List.getElem?_eq_getElem (by rw [hlen]; exact hj)]
      have := round_robin_split_getD pages workers hW j hj
      rw [List.getD_eq_getElem?_getD, List.getElem?_eq_getElem (by rw [hlen]; exact hj)] at this
      simp only [Option.getD_some] at this
      rw [this]
    have h2 : ((List.range workers).map fun j => pick workers j 0 pages)[j]?
        = some (pick workers j 0 pages) := by
      rw [List.getElem?_map, List.getElem?_range hj]
      rfl
    rw [h1, h2]
  · have h1 : (round_robin_split pages workers)[j]? = none := by
      rw [List.getElem?_eq_none_iff, hlen]
      omega
    have h2 : ((List.range workers).map fun j => pick workers j 0 pages)[j]? = none := by
      rw [List.getElem?_eq_none_iff, List.length_map, List.length_range]
      omega
    rw [h1, h2]

theorem round_robin_split_flatten_perm (pages : List Int) (workers : Nat) (hW : 0 < workers) :
    (round_robin_split pages workers).flatten.Perm pages := by
  rw [List.perm_iff_count]
  intro a
  rw [List.count_flatten, round_robin_split_eq_map_pick pages workers hW, List.map_map]
  exact pick_count workers hW a pages 0

theorem pick_mem_of_getD (workers : Nat) :
    ∀ (xs : List Int) (i0 i : Nat), i < xs.length →
      xs.getD i 0 ∈ pick workers ((i0 + i) % workers) i0 xs := by
  intro xs
  induction xs with
  | nil => intro i0 i hi; exact absurd hi (by simp)
  | cons x t ih =>
      intro i0 i hi
      cases i with
      | zero =>
          simp only [List.getD_cons_zero, pick, Nat.add_zero, if_pos rfl]
          exact List.mem_append_left _ (List.mem_singleton_self x)
      | succ n =>
          have hn : n < t.length := by simpa using hi
          have := ih (i0 + 1) n hn
          have harith : i0 + 1 + n = i0 + (n + 1) := by omega
          rw [harith] at this
          simp only [List.getD_cons_succ, pick]
          exact List.mem_append_right _ this

/-- C4: `round_robin_split P W` with `W ≥ 1` produces exactly `W` buckets;
bucket `j` consists exactly of the elements of `P` whose position is
congruent to `j` modulo `W` (so the element at position `i` lands in bucket
`i % W` and no position lands in two buckets); the buckets together are a
permutation (multiset-equal, hence disjoint partition) of `P`; and every
bucket is a sublist of `P`, preserving `P`'s relative order. -/
theorem round_robin_split_partition (P : List Int) (W : Nat) (hW : 1 ≤ W) :
    (round_robin_split P W).length = W ∧
    (∀ j, j < W → (round_robin_split P W).getD j [] = pick W j 0 P) ∧
    (∀ i, i < P.length → P.getD i 0 ∈ (round_robin_split P W).getD (i % W) []) ∧
    (round_robin_split P W).flatten.Perm P ∧
    (∀ j, j < W → ((round_robin_split P W).getD j []).Sublist P) := by
  have hWpos : 0 < W := hW
  refine ⟨?_, ?_, ?_, ?_, ?_⟩
  · rw [round_robin_split, round_robin_go_length, List.length_replicate]
  · intro j hj
    exact round_robin_split_getD P W hWpos j hj
  · intro i hi
    have hmod : i % W < W := Nat.mod_lt _ hWpos
    rw [round_robin_split_getD P W hWpos (i % W) hmod]
    have := pick_mem_of_getD W P 0 i hi
    simpa using this
  · exact round_robin_split_flatten_perm P W hWpos
  · intro j hj
    rw [round_robin_split_getD P W hWpos j hj]
    exact pick_sublist W j 0 P

/-- Witness for C4 at `P = [10, 20, 30, 40, 50]`, `W = 2`:
buckets `[10, 30, 50]` and `[20, 40]`. -/
theorem round_robin_split_partition_witness :
    (1 ≤ 2 ∧ (round_robin_split [10, 20, 30, 40, 50] 2).length = 2) ∧
    round_robin_split [10, 20, 30, 40, 50] 2 = [[10, 30, 50], [20, 40]] := by
  refine ⟨⟨by decide, (round_robin_split_partition [10, 20, 30, 40, 50] 2 (by decide)).1⟩, by decide⟩

/-! ## Pagination state and `DBRepository`

`Settings` row 1 holds `total_pages : Option Int` and
`visited_pages : List Int` (a Postgres integer array).

* `store_visited_page` (`db_repo.py` lines 83-89) runs
  `visited_pages = array_append(visited_pages, page_number)`.
* `store_total_pages` (lines 91-99) upserts `total_pages`.
* `adjust_visited_pages` (lines 111-130) replaces the array by
  `array_agg(x + k)` over its unnested elements (order preserved) and
  returns the new array. -/

structure CrawlState where
  total_pages : Option Int
  visited_pages : List Int
deriving DecidableEq, Repr

def store_visited_page (st : CrawlState) (page_number : Int) : CrawlState :=
  { st with visited_pages := st.visited_pages ++ [page_number] }

def store_total_pages (st : CrawlState) (n : Int) : CrawlState :=
  { st with total_pages := some n }

def adjust_visited_pages (st : CrawlState) (k : Int) : CrawlState :=
  { st with visited_pages := st.visited_pages.map (· + k) }

/-! ## `AutoReviewCrawler.prepare_pages` (`crawler.py` lines 69-102)

The planner is pure given the source's current page count (the result of
`_get_total_pages`) and the persisted state; the embedding returns every
intermediate the spec talks about (`PlanTrace`) together with the updated
persisted state.

Python details mirrored here:
* `if not stored_total_pages` is falsy on both `None` and `0`;
* `delta = total_pages - stored_total_pages` may be negative;
* `missing_pages = list(pages_range - visited_pages)` builds a list from a
  CPython set of small non-negative ints, which iterates in increasing
  order — modelled as the ascending list `int_range 1 start_page` filtered
  by non-membership;
* `missing_pages[:total_pages_to_crawl]` is a Python slice whose negative
  stop counts from the end. -/

def int_range_go (a : Int) : Nat → List Int
  | 0 => []
  | n + 1 => a :: int_range_go (a + 1) n

/-- Python's `range(a, b)` as an ascending list of `Int`. -/
def int_range (a b : Int) : List Int :=
  int_range_go a (b - a).toNat

def py_slice_to (l : List Int) (stop : Int) : List Int :=
  if stop < 0 then l.take ((l.length : Int) + stop).toNat else l.take stop.toNat

def py_max_list (l : List Int) : Option Int := l.max?

structure PlanTrace where
  state : CrawlState
  start_page : Int
  missing_pages : List Int
  pages_to_crawl : List Int
  plan : List (List Int)
deriving DecidableEq, Repr

def clamp_budget (total_pages budget : Int) : Int :=
  if budget > total_pages then total_pages else budget

def max_visited_of (total_pages : Int) (visited : List Int) : Int :=
  match py_max_list visited with
  | none => 0
  | some m => min total_pages m

def missing_of (visited : List Int) (start_page : Int) : List Int :=
  (int_range 1 start_page).filter fun p => ¬ visited.contains p

/-- The `if/elif/else` chain of `prepare_pages` that selects the page list
to crawl (first-budget-many missing pages, or all missing pages plus
sequential extra pages from `start_page`). -/
def pages_selection (total_pages budget start_page max_visited : Int)
    (missing : List Int) : List Int :=
  if max_visited = total_pages ∧ missing.length = 0 then []
  else if (missing.length : Int) > budget then py_slice_to missing budget
  else if (missing.length : Int) = budget then missing
  else missing ++ int_range start_page (start_page + (budget - (missing.length : Int)))

/-- The state-reading-and-updating prefix of `prepare_pages`: initialize a
falsy stored total to the current one, then on non-zero drift persist the
new total and shift the visited array by the drift. -/
def planner_state (total_pages : Int) (st0 : CrawlState) : CrawlState :=
  let stored_raw := st0.total_pages.getD 0
  let st1 := if stored_raw = 0 then store_total_pages st0 total_pages else st0
  let stored_total_pages := if stored_raw = 0 then total_pages else stored_raw
  let delta := total_pages - stored_total_pages
  if delta = 0 then st1 else adjust_visited_pages (store_total_pages st1 total_pages) delta

def prepare_pages_trace (total_pages : Int) (total_pages_to_crawl0 : Int) (workers : Nat)
    (st0 : CrawlState) : PlanTrace :=
  let st2 := planner_state total_pages st0
  let total_pages_to_crawl := clamp_budget total_pages total_pages_to_crawl0
  let max_visited_page := max_visited_of total_pages st2.visited_pages
  let start_page := max_visited_page + 1
  let missing_pages := missing_of st2.visited_pages start_page
  let pages := pages_selection total_pages total_pages_to_crawl start_page max_visited_page
    missing_pages
  if max_visited_page = total_pages ∧ missing_pages.length = 0 then
    ⟨st2, start_page, missing_pages, [], []⟩
  else
    ⟨st2, start_page, missing_pages, pages, round_robin_split pages workers⟩

def prepare_pages (total_pages : Int) (total_pages_to_crawl : Int) (workers : Nat)
    (st : CrawlState) : List (List Int) :=
  (prepare_pages_trace total_pages total_pages_to_crawl workers st).plan

/-- C1 counterexample: in the drift scenario (stored `total_pages = 10`,
source now reports 12, persisted `visited_pages = {1,2,3}`, budget 3,
1 worker) the code shifts the visited set to `{3,4,5}` and computes
`start_page = 6`, but the missing-pages set is `{1,2}` — the two lowest
indices now hold unseen content — not `{}`, and the plan is `[[1,2,6]]`,
not `[[6,7,8]]`. -/
theorem prepare_pages_drift_scenario_counterexample :
    (prepare_pages_trace 12 3 1 ⟨some 10, [1, 2, 3]⟩).missing_pages ≠ [] ∧
    prepare_pages 12 3 1 ⟨some 10, [1, 2, 3]⟩ ≠ [[6, 7, 8]] := by
  decide

/-- C1 (amended): in the drift scenario (stored `total_pages = 10`, source
now reports 12, persisted `visited_pages = {1,2,3}`), planning persists
`total_pages = 12`, shifts the persisted visited set to `{3,4,5}`, computes
`start_page = 6` and missing pages `{1,2}`, and with a budget of 3 pages
and one worker returns the plan `[[1,2,6]]` (the two recovered gaps plus
one new page). -/
theorem prepare_pages_drift_scenario :
    prepare_pages_trace 12 3 1 ⟨some 10, [1, 2, 3]⟩ =
      ⟨⟨some 12, [3, 4, 5]⟩, 6, [1, 2], [1, 2, 6], [[1, 2, 6]]⟩ ∧
    prepare_pages 12 3 1 ⟨some 10, [1, 2, 3]⟩ = [[1, 2, 6]] := by
  decide

/-- C5 counterexample: `store_visited_page` is `array_append` on the
persisted array, so marking page 4 visited twice (from the empty state)
leaves the index in `visited_pages` twice, not "exactly once". -/
theorem store_visited_page_twice_counterexample :
    (store_visited_page (store_visited_page ⟨some 10, []⟩ 4) 4).visited_pages = [4, 4] ∧
    (store_visited_page (store_visited_page ⟨some 10, []⟩ 4) 4).visited_pages.count 4 ≠ 1 := by
  decide

/-- C5 (amended): marking the same page index visited twice yields the same
`visited_pages` *membership* as marking it once (the planner reads the
array through a Python `set`, so planning is unaffected), but the persisted
array itself gains a second copy of the index — `array_append` has list,
not set, semantics. -/
theorem store_visited_page_membership_idempotent (st : CrawlState) (p q : Int) :
    (q ∈ (store_visited_page (store_visited_page st p) p).visited_pages ↔
      q ∈ (store_visited_page st p).visited_pages) ∧
    (store_visited_page (store_visited_page st p) p).visited_pages.count p =
      (store_visited_page st p).visited_pages.count p + 1 := by
  refine ⟨?_, ?_⟩
  · simp only [store_visited_page, List.mem_append, List.mem_singleton]
    tauto
  · simp [store_visited_page]

theorem mem_int_range_go {p : Int} :
    ∀ (n : Nat) (lo : Int), p ∈ int_range_go lo n ↔ lo ≤ p ∧ p < lo + (n : Int) := by
  intro n
  induction n with
  | zero => intro lo; simp [int_range_go]
  | succ m ih =>
      intro lo
      simp only [int_range_go, List.mem_cons, ih (lo + 1)]
      constructor
      · rintro (rfl | ⟨h1, h2⟩) <;> omega
      · intro ⟨h1, h2⟩
        by_cases hpl : p = lo
        · exact Or.inl hpl
        · exact Or.inr ⟨by omega, by omega⟩

theorem mem_int_range {lo hi p : Int} : p ∈ int_range lo hi ↔ lo ≤ p ∧ p < hi := by
  rw [int_range, mem_int_range_go]
  omega

theorem round_robin_go_nil_buckets (workers : Nat) :
    ∀ (xs : List Int) (i : Nat), round_robin_go workers [] i xs = [] := by
  intro xs
  induction xs with
  | nil => intro i; rfl
  | cons x t ih => intro i; rw [round_robin_go]; exact ih (i + 1)

theorem mem_of_mem_round_robin_flatten {pages : List Int} {workers : Nat} {x : Int} :
    x ∈ (round_robin_split pages workers).flatten → x ∈ pages := by
  intro hx
  cases workers with
  | zero =>
      rw [round_robin_split, List.replicate_zero, round_robin_go_nil_buckets] at hx
      simp at hx
  | succ n =>
      exact (round_robin_split_flatten_perm pages (n + 1) (Nat.succ_pos n)).mem_iff.mp hx

theorem pages_selection_bound {T budget start maxv : Int} {missing : List Int}
    (hstart : start = maxv + 1) (hmaxv0 : 0 ≤ maxv) (hmaxvT : maxv ≤ T)
    (hbudget : budget ≤ T)
    (hmissing : ∀ p ∈ missing, 1 ≤ p ∧ p < start) :
    ∀ p ∈ pages_selection T budget start maxv missing, 1 ≤ p ∧ p ≤ 2 * T := by
  intro p hp
  unfold pages_selection at hp
  split_ifs at hp with h1 h2 h3
  · simp at hp
  · have hpm : p ∈ missing := by
      unfold py_slice_to at hp
      split_ifs at hp <;> exact List.take_subset _ _ hp
    have := hmissing p hpm
    omega
  · have := hmissing p hp
    omega
  · rcases List.mem_append.mp hp with hpm | hpe
    · have := hmissing p hpm
      omega
    · have := mem_int_range.mp hpe
      have hlen : (0 : Int) ≤ (missing.length : Int) := Int.ofNat_nonneg _
      omega

theorem clamp_budget_le (T b : Int) : clamp_budget T b ≤ T ∨ clamp_budget T b = b := by
  unfold clamp_budget
  split_ifs <;> simp

theorem clamp_budget_le_total (T b : Int) : clamp_budget T b ≤ T := by
  unfold clamp_budget
  split_ifs <;> omega

theorem missing_of_mem {v : List Int} {start p : Int} (hp : p ∈ missing_of v start) :
    1 ≤ p ∧ p < start := by
  unfold missing_of at hp
  exact mem_int_range.mp (List.mem_of_mem_filter hp)

theorem max_visited_of_bounds (T : Int) (v : List Int) (hT : 0 ≤ T) (hv : ∀ x ∈ v, 1 ≤ x) :
    0 ≤ max_visited_of T v ∧ max_visited_of T v ≤ T := by
  unfold max_visited_of py_max_list
  cases h : v.max? with
  | none => simpa using hT
  | some m =>
      have hstd : Std.Antisymm (α := Int) (· ≤ ·) := ⟨fun h1 h2 => le_antisymm h1 h2⟩
      rw [List.max?_eq_some_iff] at h
      · have hm := hv m h.1
        constructor
        · simp only []
          omega
        · simp only []
          omega
      all_goals simp [le_total]

theorem planner_state_visited_pos (T : Int) (st : CrawlState)
    (hstored : ∀ n, st.total_pages = some n → n ≤ T)
    (hvis : ∀ v ∈ st.visited_pages, 1 ≤ v) :
    ∀ x ∈ (planner_state T st).visited_pages, 1 ≤ x := by
  intro x hx
  cases hopt : st.total_pages with
  | none =>
      simp only [planner_state, hopt, store_total_pages, adjust_visited_pages,
        Option.getD_none, if_pos rfl] at hx
      simp at hx
      exact hvis x hx
  | some n =>
      by_cases hn : n = 0
      · subst hn
        simp only [planner_state, hopt, store_total_pages, adjust_visited_pages,
          Option.getD_some, if_pos rfl] at hx
        simp at hx
        exact hvis x hx
      · have hnT : n ≤ T := hstored n hopt
        simp only [planner_state, hopt, store_total_pages, adjust_visited_pages,
          Option.getD_some, if_neg hn] at hx
        by_cases hd : T - n = 0
        · rw [if_pos hd] at hx
          exact hvis x hx
        · rw [if_neg hd] at hx
          simp only [List.mem_map] at hx
          rcases hx with ⟨v, hvmem, rfl⟩
          have := hvis v hvmem
          omega

/-- C6 counterexample: with the source at `T_now = 10` pages (stored total
also 10, so no drift), visited set `{5}` and a requested budget of 10,
`prepare_pages` plans page 11, which lies outside `[1, 10]`: the
sequential extra pages `range(start_page, start_page + extra_pages_count)`
are not capped at the source's page count. -/
theorem prepare_pages_exceeds_source_counterexample :
    11 ∈ (prepare_pages 10 10 1 ⟨some 10, [5]⟩).flatten ∧ ¬((11 : Int) ≤ 10) := by
  decide

/-- C6 (amended): for every current total `T_now ≥ 0`, persisted state
whose stored total does not exceed `T_now` (drift is non-negative) and
whose visited pages are all `≥ 1`, and every requested budget, each page
index in the plan returned by `prepare_pages` lies in `[1, 2·T_now]`.  The
lower bound 1 always holds, but the sequential new pages appended after
the missing pages are *not* stopped at `T_now`: they run to
`start_page + (budget' - |missing|) - 1 ≤ 2·T_now` where
`budget' = min(budget, T_now)`, and can pass `T_now` (see the
counterexample). -/
theorem prepare_pages_page_bounds (T budget : Int) (workers : Nat) (st : CrawlState)
    (hT : 0 ≤ T)
    (hstored : ∀ n, st.total_pages = some n → n ≤ T)
    (hvis : ∀ v ∈ st.visited_pages, 1 ≤ v) :
    ∀ p ∈ (prepare_pages T budget workers st).flatten, 1 ≤ p ∧ p ≤ 2 * T := by
  intro p hp
  have hv2 := planner_state_visited_pos T st hstored hvis
  have hmax := max_visited_of_bounds T (planner_state T st).visited_pages hT hv2
  rw [prepare_pages] at hp
  unfold prepare_pages_trace at hp
  simp only [] at hp
  split_ifs at hp with hcov
  · simp at hp
  · simp only [] at hp
    have hpages := mem_of_mem_round_robin_flatten hp
    refine pages_selection_bound rfl hmax.1 hmax.2 (clamp_budget_le_total T budget) ?_ p hpages
    intro q hq
    exact missing_of_mem hq

/-- Witness for C6 at `T_now = 10`, stored total 10, visited `{5}`,
budget 10: every planned page is in `[1, 20]`. -/
theorem prepare_pages_page_bounds_witness :
    (0 : Int) ≤ 10 ∧
    (∀ p ∈ (prepare_pages 10 10 1 ⟨some 10, [5]⟩).flatten, 1 ≤ p ∧ p ≤ 2 * 10) :=
  ⟨by decide,
   prepare_pages_page_bounds 10 10 1 ⟨some 10, [5]⟩ (by decide)
     (by intro n hn; cases hn; decide) (by intro v hv; simp at hv; omega)⟩

/-! ## Review records, trait normalization and `DBRepository.store_reviews`

`models/review.py` defines `Characteristic(EnumValueMixin, StrEnum)` with
14 members and `EnumValueMixin.get_name_by_value(value)` =
`next((name for name, member in cls.__members__.items() if member.value == value), None)`.

`db_repo.py` lines 39-81 (`store_reviews`): each incoming dict is turned
into a `Review` row whose `pros`/`cons` are
`[Characteristic.get_name_by_value(p) for p in review['pros']] if review['pros'] else []`
(so an unmatched token contributes `None` to the list) and whose
`pros_text`/`cons_text` are `', '.join(...)`; the batch is committed as one
unit (`add_all` + `commit`); a duplicate-key `IntegrityError` rolls the
batch back and retries each row individually, collecting the failures, and
raises `ReviewAlreadyExists` carrying the failure count iff any remain.

Fields of the row not touched by any claim (name, year, ratings, mileage,
drive type, date) are omitted; the uniqueness conflict is on the primary
key `link`. -/

def characteristic_members : List (String × String) :=
  [("ACCELERATION", "динаміка"), ("BRAKES", "гальма"), ("BUILD_QUALITY", "якість збірки"),
   ("EXTERIOR_DESIGN", "дизайн кузова"), ("FUEL_CONSUMPTION", "витрати палива"),
   ("GROUND_CLEARANCE", "дорожній просвіт"), ("HANDLING", "керованість"),
   ("INTERIOR_SPACE", "простір салону"), ("MATERIAL_QUALITY", "якість матеріалів"),
   ("MAINTENANCE_COST", "вартість обслуговування"), ("PRICE", "ціна"),
   ("SOUND_INSULATION", "шумоізоляція"), ("TRANSMISSION", "коробка передач"),
   ("TRUNK_SPACE", "об\x60єм багажника")]

def get_name_by_value (members : List (String × String)) (value : String) : Option String :=
  (members.find? fun m => m.2 == value).map Prod.fst

/-- An extracted review dict (`review_data`), restricted to the fields the
claims touch. -/
structure Rec where
  link : String
  pros : Option (List String)
  cons : Option (List String)
deriving DecidableEq, Repr

/-- A persisted `Review` row, restricted to the fields the claims touch. -/
structure Review where
  link : String
  pros : List (Option String)
  pros_text : Option String
  cons : List (Option String)
  cons_text : Option String
deriving DecidableEq, Repr

/-- `[Characteristic.get_name_by_value(t) for t in traits] if traits else []`. -/
def traits_names (traits : Option (List String)) : List (Option String) :=
  match traits with
  | none => []
  | some [] => []
  | some ts => ts.map (get_name_by_value characteristic_members)

/-- `', '.join(traits) if traits else None`. -/
def traits_text (traits : Option (List String)) : Option String :=
  match traits with
  | none => none
  | some [] => none
  | some ts => some (String.intercalate ", " ts)

def build_review (r : Rec) : Review :=
  ⟨r.link, traits_names r.pros, traits_text r.pros, traits_names r.cons, traits_text r.cons⟩

/-- The fallback loop of `store_reviews`: insert each row individually,
rolling back (dropping) a row whose link is already present and counting
it as failed. -/
def store_individually : List Review → List Review → List Review × Nat
  | rows, [] => (rows, 0)
  | rows, r :: rest =>
      if r.link ∈ rows.map Review.link then
        let res := store_individually rows rest
        (res.1, res.2 + 1)
      else
        store_individually (rows ++ [r]) rest

/-- `store_reviews`: the one-unit batch commit succeeds iff no row's link
collides with the stored rows or with another row of the batch; otherwise
the individual fallback runs and the duplicate count is raised (as
`some count`) iff it is non-zero. -/
def store_reviews (rows : List Review) (cur_reviews : List Rec) : List Review × Option Nat :=
  let db_reviews := cur_reviews.map build_review
  if (db_reviews.map Review.link).Nodup ∧ ∀ r ∈ db_reviews, r.link ∉ rows.map Review.link then
    (rows ++ db_reviews, none)
  else
    let res := store_individually rows db_reviews
    (res.1, if res.2 = 0 then none else some res.2)


theorem store_individually_prefix : ∀ (new rows : List Review),
    ∃ t, (store_individually rows new).1 = rows ++ t := by
  intro new
  induction new with
  | nil => intro rows; exact ⟨[], by simp [store_individually]⟩
  | cons r rest ih =>
      intro rows
      rw [store_individually]
      by_cases hc : r.link ∈ rows.map Review.link
      · simp only [if_pos hc]
        exact ih rows
      · simp only [if_neg hc]
        rcases ih (rows ++ [r]) with ⟨t, ht⟩
        exact ⟨[r] ++ t, by rw [ht, List.append_assoc]⟩

theorem store_individually_length : ∀ (new rows : List Review),
    (store_individually rows new).1.length + (store_individually rows new).2
      = rows.length + new.length := by
  intro new
  induction new with
  | nil => intro rows; simp [store_individually]
  | cons r rest ih =>
      intro rows
      rw [store_individually]
      by_cases hc : r.link ∈ rows.map Review.link
      · simp only [if_pos hc]
        have := ih rows
        simp only [List.length_cons]
        omega
      · simp only [if_neg hc]
        have := ih (rows ++ [r])
        simp only [List.length_append, List.length_cons, List.length_nil] at this ⊢
        omega

theorem store_individually_mem_link : ∀ (new rows : List Review), ∀ s ∈ new,
    s.link ∈ (store_individually rows new).1.map Review.link := by
  intro new
  induction new with
  | nil => intro rows s hs; simp at hs
  | cons r rest ih =>
      intro rows s hs
      rw [store_individually]
      by_cases hc : r.link ∈ rows.map Review.link
      · simp only [if_pos hc]
        rcases List.mem_cons.mp hs with rfl | hs'
        · rcases store_individually_prefix rest rows with ⟨t, ht⟩
          rw [ht, List.map_append]
          exact List.mem_append_left _ hc
        · exact ih rows s hs'
      · simp only [if_neg hc]
        rcases List.mem_cons.mp hs with rfl | hs'
        · rcases store_individually_prefix rest (rows ++ [s]) with ⟨t, ht⟩
          rw [ht, List.map_append, List.map_append]
          exact List.mem_append_left _ (List.mem_append_right _ (by simp))
        · exact ih (rows ++ [r]) s hs'

theorem store_individually_conflict_pos : ∀ (new rows : List Review),
    ((∃ s ∈ new, s.link ∈ rows.map Review.link) ∨ ¬ (new.map Review.link).Nodup) →
    1 ≤ (store_individually rows new).2 := by
  intro new
  induction new with
  | nil =>
      intro rows h
      rcases h with ⟨s, hs, _⟩ | h
      · simp at hs
      · simp at h
  | cons r rest ih =>
      intro rows h
      rw [store_individually]
      by_cases hc : r.link ∈ rows.map Review.link
      · simp only [if_pos hc]
        omega
      · simp only [if_neg hc]
        apply ih (rows ++ [r])
        rcases h with ⟨s, hs, hlink⟩ | hnd
        · rcases List.mem_cons.mp hs with rfl | hs'
          · exact absurd hlink hc
          · exact Or.inl ⟨s, hs', by rw [List.map_append]; exact List.mem_append_left _ hlink⟩
        · rw [List.map_cons, List.nodup_cons] at hnd
          by_cases hin : r.link ∈ rest.map Review.link
          · rcases List.mem_map.mp hin with ⟨s, hs', hslink⟩
            refine Or.inl ⟨s, hs', ?_⟩
            rw [hslink, List.map_append]
            exact List.mem_append_right _ (by simp)
          · refine Or.inr fun hnd' => hnd ⟨hin, hnd'⟩

/-- C7: `store_reviews` first inserts the whole batch as one unit (when no
link of the batch collides with the stored rows or with another batch
row, the result is exactly `rows ++ batch` with no signal); every record
of the batch has its link persisted afterwards (non-duplicates are
inserted, duplicates were already present) and no stored row is lost; the
`ReviewAlreadyExists` signal (`some count`) is raised iff at least one
record remains a duplicate after the individual retries, and the count it
carries is exactly the number of records not inserted
(`rows.length + batch.length - result.length`) and is at least 1. -/
theorem store_reviews_spec (rows : List Review) (recs : List Rec) :
    ((((recs.map build_review).map Review.link).Nodup ∧
        ∀ r ∈ recs.map build_review, r.link ∉ rows.map Review.link) →
      store_reviews rows recs = (rows ++ recs.map build_review, none)) ∧
    (∀ r ∈ rows, r ∈ (store_reviews rows recs).1) ∧
    (∀ r ∈ recs.map build_review, r.link ∈ (store_reviews rows recs).1.map Review.link) ∧
    ((store_reviews rows recs).2 = none ↔
      (((recs.map build_review).map Review.link).Nodup ∧
        ∀ r ∈ recs.map build_review, r.link ∉ rows.map Review.link)) ∧
    (∀ k, (store_reviews rows recs).2 = some k →
      1 ≤ k ∧ (store_reviews rows recs).1.length + k = rows.length + recs.length) := by
  by_cases hok : (((recs.map build_review).map Review.link).Nodup ∧
      ∀ r ∈ recs.map build_review, r.link ∉ rows.map Review.link)
  · have heq : store_reviews rows recs = (rows ++ recs.map build_review, none) := by
      rw [store_reviews]
      simp only [if_pos hok]
    refine ⟨fun _ => heq, ?_, ?_, ?_, ?_⟩
    · intro r hr
      rw [heq]
      exact List.mem_append_left _ hr
    · intro r hr
      rw [heq]
      simp only [List.map_append]
      exact List.mem_append_right _ (List.mem_map_of_mem _ hr)
    · rw [heq]
      simpa using hok
    · intro k hk
      rw [heq] at hk
      simp at hk
  · have hconf : (∃ s ∈ recs.map build_review, s.link ∈ rows.map Review.link) ∨
        ¬ ((recs.map build_review).map Review.link).Nodup := by
      have hok' := hok
      rw [not_and_or] at hok'
      rcases hok' with hnd | hall
      · exact Or.inr hnd
      · push_neg at hall
        rcases hall with ⟨r, hr, hlink⟩
        exact Or.inl ⟨r, hr, hlink⟩
    have hpos := store_individually_conflict_pos (recs.map build_review) rows hconf
    have hlen := store_individually_length (recs.map build_review) rows
    have heq : store_reviews rows recs =
        ((store_individually rows (recs.map build_review)).1,
          some (store_individually rows (recs.map build_review)).2) := by
      rw [store_reviews]
      simp only [if_neg hok]
      have hne : ¬ (store_individually rows (recs.map build_review)).2 = 0 := by omega
      simp [hne]
    refine ⟨fun h => absurd h hok, ?_, ?_, ?_, ?_⟩
    · intro r hr
      rw [heq]
      rcases store_individually_prefix (recs.map build_review) rows with ⟨t, ht⟩
      simp only [ht]
      exact List.mem_append_left _ hr
    · intro r hr
      rw [heq]
      exact store_individually_mem_link (recs.map build_review) rows r hr
    · rw [heq]
      constructor
      · intro h
        exact absurd h (by simp)
      · intro h
        exact absurd h hok
    · intro k hk
      rw [heq] at hk ⊢
      simp only [Option.some.injEq] at hk
      subst hk
      refine ⟨hpos, ?_⟩
      have hml : (recs.map build_review).length = recs.length := List.length_map _ _
      simp only []
      omega

/-- Witness for C7: storing batch `[a, b, b]` over stored rows `[a]`
persists `b` once, keeps row `a`, and raises `some 2` (one duplicate
against the store, one within the batch); a conflict-free batch commits
as one unit. -/
theorem store_reviews_spec_witness :
    store_reviews [⟨"a", [], none, [], none⟩]
        [⟨"a", none, none⟩, ⟨"b", none, none⟩, ⟨"b", none, none⟩]
      = ([⟨"a", [], none, [], none⟩, ⟨"b", [], none, [], none⟩], some 2) ∧
    store_reviews [] [⟨"c", none, none⟩] = ([⟨"c", [], none, [], none⟩], none) := by
  constructor
  · decide
  · exact (store_reviews_spec [] [⟨"c", none, none⟩]).1 (by decide)

/-- C8 counterexample: a record whose single pros token does not match any
`Characteristic` value gets a categorical pros list `[null]` — the
unmatched token contributes a `None` entry (the raw result of
`get_name_by_value`), so the list is *not* "exactly the enumeration names
of the matching tokens", which would be `[]`; the free-text field does
keep the token. -/
theorem traits_unmatched_counterexample :
    (build_review ⟨"r1", some ["казна-що"], none⟩).pros = [none] ∧
    (build_review ⟨"r1", some ["казна-що"], none⟩).pros ≠ [] ∧
    (build_review ⟨"r1", some ["казна-що"], none⟩).pros_text = some "казна-що" := by
  refine ⟨rfl, by decide, rfl⟩

theorem traits_names_cons (t : String) (ts : List String) :
    traits_names (some (t :: ts)) = (t :: ts).map (get_name_by_value characteristic_members) := by
  rfl

theorem traits_text_cons (t : String) (ts : List String) :
    traits_text (some (t :: ts)) = some (String.intercalate ", " (t :: ts)) := by
  rfl

/-- C8 (amended): for every record with non-empty pros/cons token lists,
the persisted categorical list has exactly one entry per token — the
enumeration name (`get_name_by_value`) for a matching token and `null`
for a non-matching one — so its non-null entries are exactly the
enumeration names of the matching tokens in order, and the free-text
field preserves all original tokens comma-joined.  (A non-matching token
itself never appears, but it leaves a `null` placeholder in the list.) -/
theorem traits_normalization (link : String) (tp tc : List String)
    (hp : tp ≠ []) (hc : tc ≠ []) :
    (build_review ⟨link, some tp, some tc⟩).pros
        = tp.map (get_name_by_value characteristic_members) ∧
    (build_review ⟨link, some tp, some tc⟩).pros.filterMap id
        = tp.filterMap (get_name_by_value characteristic_members) ∧
    (build_review ⟨link, some tp, some tc⟩).pros_text
        = some (String.intercalate ", " tp) ∧
    (build_review ⟨link, some tp, some tc⟩).cons
        = tc.map (get_name_by_value characteristic_members) ∧
    (build_review ⟨link, some tp, some tc⟩).cons.filterMap id
        = tc.filterMap (get_name_by_value characteristic_members) ∧
    (build_review ⟨link, some tp, some tc⟩).cons_text
        = some (String.intercalate ", " tc) := by
  match tp, hp with
  | t :: ts, _ =>
  match tc, hc with
  | u :: us, _ =>
  refine ⟨traits_names_cons t ts, ?_, traits_text_cons t ts,
    traits_names_cons u us, ?_, traits_text_cons u us⟩
  · show List.filterMap id (traits_names (some (t :: ts))) = _
    rw [traits_names_cons, List.filterMap_map]
    rfl
  · show List.filterMap id (traits_names (some (u :: us))) = _
    rw [traits_names_cons, List.filterMap_map]
    rfl

/-- Witness for C8 at tokens `["динаміка", "казна-що"]` / `["ціна"]`:
categorical lists `[ACCELERATION, null]` and `[PRICE]`, free text kept. -/
theorem traits_normalization_witness :
    ((["динаміка", "казна-що"] : List String) ≠ [] ∧ (["ціна"] : List String) ≠ []) ∧
    (build_review ⟨"r2", some ["динаміка", "казна-що"], some ["ціна"]⟩).pros
        = [some "ACCELERATION", none] ∧
    (build_review ⟨"r2", some ["динаміка", "казна-що"], some ["ціна"]⟩).pros.filterMap id
        = ["ACCELERATION"] ∧
    (build_review ⟨"r2", some ["динаміка", "казна-що"], some ["ціна"]⟩).pros_text
        = some "динаміка, казна-що" := by
  refine ⟨⟨by decide, by decide⟩, ?_, ?_, ?_⟩
  · rw [(traits_normalization "r2" ["динаміка", "казна-що"] ["ціна"] (by decide) (by decide)).1]
    decide
  · rw [(traits_normalization "r2" ["динаміка", "казна-що"] ["ціна"] (by decide) (by decide)).2.1]
    decide
  · rw [(traits_normalization "r2" ["динаміка", "казна-що"] ["ціна"]
      (by decide) (by decide)).2.2.1]
    decide

/-! ## Extractor (`AutoReviewCrawler._extract_reviews`, `crawler.py` 193-210)

The DOM library is external: a fetched page's parsed content is modelled
as the list of its `article.reviews-car-card_i` containers, each of which
either parses to a record (`some r` — `_parse_short_review` filled the
dict) or raises (`none`).  The source wraps the WHOLE `for` loop in one
`try/except`:
```
try:
    for article in html_parser.find_all('article', class_='reviews-car-card_i'):
        review_data = {}
        self._parse_short_review(article, review_data, html_parser)
        reviews.append(review_data)
except Exception as e:
    logging.warning(f"Skipping a review due to the failed parsing. Error: {e}")
return reviews
```
so a raising container ends the loop: only the records appended before it
are returned, the remaining containers are never visited. -/

def extract_reviews : List (Option Rec) → List Rec
  | [] => []
  | some r :: rest => r :: extract_reviews rest
  | none :: _ => []

/-- C2 evidence (code bug): on a page with 5 record containers of which
exactly one is malformed, `_extract_reviews` returns only the records
before the malformed one — 1 record when the bad container is second, and
0 records when it is first — because the `try` wraps the whole loop, not
the per-record body; the claim's "exactly 4, never 0" fails. -/
theorem extract_reviews_aborts_on_malformed :
    extract_reviews [some ⟨"l1", none, none⟩, none, some ⟨"l3", none, none⟩,
        some ⟨"l4", none, none⟩, some ⟨"l5", none, none⟩] = [⟨"l1", none, none⟩] ∧
    extract_reviews [none, some ⟨"l2", none, none⟩, some ⟨"l3", none, none⟩,
        some ⟨"l4", none, none⟩, some ⟨"l5", none, none⟩] = [] := by
  decide

/-! ## Fetcher (`AutoReviewCrawler._fetch_view`, `crawler.py` 104-119)

```
@retry(stop=stop_after_attempt(MAX_RETRIES),
       wait=wait_exponential(multiplier=1, min=2, max=30),
       retry=retry_if_exception_type(FailedToFetchView), reraise=True)
async def _fetch_view(self, url):
    ... if response.status == 404: return ''
        elif response.status != 200: raise FailedToFetchView(...)
        return await response.text()
```
The network is a function from attempt number (1-based, as in tenacity)
to the `(status, body)` it returns.  `fetch_view` yields the content and
the attempt that produced it, or the re-raised `FailedToFetchView` once
all `MAX_RETRIES = 5` attempts are spent. -/

inductive FetchFail where
  | failed_to_fetch
deriving DecidableEq, Repr

def MAX_RETRIES : Nat := 5

def fetch_attempt (resp : Nat × String) : Except FetchFail String :=
  if resp.1 = 404 then .ok ""
  else if resp.1 ≠ 200 then .error .failed_to_fetch
  else .ok resp.2

/-- tenacity `wait_exponential(multiplier=1, min=2, max=30)`: the delay in
seconds scheduled after failed attempt `n` is `1 * 2^(n-1)` clamped to
`[2, 30]`. -/
def wait_delay (n : Nat) : Nat := max 2 (min 30 (2 ^ (n - 1)))

def fetch_go (responses : Nat → Nat × String) : Nat → Nat → Except FetchFail (String × Nat)
  | 0, _ => .error .failed_to_fetch
  | remaining + 1, attempt =>
      match fetch_attempt (responses attempt) with
      | .ok s => .ok (s, attempt)
      | .error e =>
          if remaining = 0 then .error e else fetch_go responses remaining (attempt + 1)

def fetch_view (responses : Nat → Nat × String) : Except FetchFail (String × Nat) :=
  fetch_go responses MAX_RETRIES 1

theorem fetch_attempt_transient {resp : Nat × String}
    (h404 : resp.1 ≠ 404) (h200 : resp.1 ≠ 200) :
    fetch_attempt resp = .error .failed_to_fetch := by
  unfold fetch_attempt
  rw [if_neg h404, if_pos h200]

theorem fetch_go_ok (responses : Nat → Nat × String) (rem att : Nat) (s : String)
    (h : fetch_attempt (responses att) = .ok s) :
    fetch_go responses (rem + 1) att = .ok (s, att) := by
  rw [fetch_go, h]

theorem fetch_go_step (responses : Nat → Nat × String) (rem att : Nat)
    (h : fetch_attempt (responses att) = .error .failed_to_fetch) :
    fetch_go responses (rem + 2) att = fetch_go responses (rem + 1) (att + 1) := by
  rw [show rem + 2 = (rem + 1) + 1 by rfl, fetch_go, h]
  simp

theorem fetch_go_last (responses : Nat → Nat × String) (att : Nat)
    (h : fetch_attempt (responses att) = .error .failed_to_fetch) :
    fetch_go responses 1 att = .error .failed_to_fetch := by
  rw [show (1 : Nat) = 0 + 1 by rfl, fetch_go, h]
  simp

theorem fetch_view_404 (responses : Nat → Nat × String) (h : (responses 1).1 = 404) :
    fetch_view responses = .ok ("", 1) := by
  have hat : fetch_attempt (responses 1) = .ok "" := by
    unfold fetch_attempt
    rw [if_pos h]
  exact fetch_go_ok responses 4 1 "" hat

theorem fetch_view_exhausted (responses : Nat → Nat × String)
    (h : ∀ a, 1 ≤ a → a ≤ 5 → (responses a).1 ≠ 404 ∧ (responses a).1 ≠ 200) :
    fetch_view responses = .error .failed_to_fetch := by
  have e : ∀ a, 1 ≤ a → a ≤ 5 → fetch_attempt (responses a) = .error .failed_to_fetch :=
    fun a h1 h2 => fetch_attempt_transient (h a h1 h2).1 (h a h1 h2).2
  rw [fetch_view, show MAX_RETRIES = 3 + 2 by rfl,
    fetch_go_step responses 3 1 (e 1 (by omega) (by omega)),
    show (3 : Nat) + 1 = 2 + 2 by rfl,
    fetch_go_step responses 2 2 (e 2 (by omega) (by omega)),
    show (2 : Nat) + 1 = 1 + 2 by rfl,
    fetch_go_step responses 1 3 (e 3 (by omega) (by omega)),
    show (1 : Nat) + 1 = 0 + 2 by rfl,
    fetch_go_step responses 0 4 (e 4 (by omega) (by omega))]
  exact fetch_go_last responses 5 (e 5 (by omega) (by omega))

theorem fetch_view_fifth_attempt (responses : Nat → Nat × String) (b : String)
    (h : ∀ a, 1 ≤ a → a ≤ 4 → (responses a).1 ≠ 404 ∧ (responses a).1 ≠ 200)
    (h5 : responses 5 = (200, b)) :
    fetch_view responses = .ok (b, 5) := by
  have e : ∀ a, 1 ≤ a → a ≤ 4 → fetch_attempt (responses a) = .error .failed_to_fetch :=
    fun a h1 h2 => fetch_attempt_transient (h a h1 h2).1 (h a h1 h2).2
  rw [fetch_view, show MAX_RETRIES = 3 + 2 by rfl,
    fetch_go_step responses 3 1 (e 1 (by omega) (by omega)),
    show (3 : Nat) + 1 = 2 + 2 by rfl,
    fetch_go_step responses 2 2 (e 2 (by omega) (by omega)),
    show (2 : Nat) + 1 = 1 + 2 by rfl,
    fetch_go_step responses 1 3 (e 3 (by omega) (by omega)),
    show (1 : Nat) + 1 = 0 + 2 by rfl,
    fetch_go_step responses 0 4 (e 4 (by omega) (by omega))]
  apply fetch_go_ok
  rw [fetch_attempt, h5]
  simp

/-! ## Worker loop (`AutoReviewCrawler.crawl`, `crawler.py` 212-242)

Per assigned page: fetch (with retries); `FailedToFetchView` logs and
`continue`s to the next page before any store; otherwise the containers
are extracted, `total_reviews_scrapped += len(reviews)` runs *before*
persistence, `store_reviews` runs with `ReviewAlreadyExists` caught and
logged, and `store_visited_page(page)` runs afterwards.  The network is
`env page attempt = (status, body)`; the DOM collaborator `parse` maps
fetched content to the page's record containers.  The randomized
inter-page sleep only spends time and is omitted from the state model. -/

structure WorkerState where
  rows : List Review
  state : CrawlState
  total_reviews_scrapped : Nat
deriving DecidableEq, Repr

def crawl (env : Int → Nat → Nat × String) (parse : String → List (Option Rec)) :
    List Int → WorkerState → WorkerState
  | [], st => st
  | page :: rest, st =>
      match fetch_view (env page) with
      | .error _ => crawl env parse rest st
      | .ok (html, _) =>
          let reviews := extract_reviews (parse html)
          let total := st.total_reviews_scrapped + reviews.length
          let res := store_reviews st.rows reviews
          crawl env parse rest ⟨res.1, store_visited_page st.state page, total⟩

theorem crawl_page_404 (env : Int → Nat → Nat × String) (parse : String → List (Option Rec))
    (st : WorkerState) (page : Int)
    (hparse : parse "" = []) (h404 : (env page 1).1 = 404) :
    crawl env parse [page] st =
      ⟨st.rows, store_visited_page st.state page, st.total_reviews_scrapped⟩ := by
  rw [crawl, fetch_view_404 (env page) h404]
  simp only [hparse, extract_reviews, store_reviews, List.map_nil, List.nodup_nil,
    List.not_mem_nil, false_implies, implies_true, and_self, if_true, List.length_nil,
    Nat.add_zero, List.append_nil]
  rfl

theorem crawl_page_exhausted (env : Int → Nat → Nat × String)
    (parse : String → List (Option Rec)) (st : WorkerState) (page : Int)
    (h : ∀ a, 1 ≤ a → a ≤ 5 → (env page a).1 ≠ 404 ∧ (env page a).1 ≠ 200) :
    crawl env parse [page] st = st := by
  rw [crawl, fetch_view_exhausted (env page) h]
  rfl

theorem wait_delay_bounds (n : Nat) (hn : 1 ≤ n) :
    2 ≤ wait_delay n ∧ wait_delay n ≤ 30 ∧ wait_delay n ≤ wait_delay (n + 1) := by
  have hpow : 2 ^ (n - 1) ≤ 2 ^ (n + 1 - 1) := Nat.pow_le_pow_right (by omega) (by omega)
  unfold wait_delay
  omega

/-- C3: a 404 response is terminal: `fetch_view` returns empty content
from the first attempt (no retry), and the worker then extracts zero
records, stores zero records (its rows are unchanged and its scraped
total does not grow), yet still adds the page index to `visited_pages`.
A non-404 non-200 response is transient: it is retried up to the fixed
attempt ceiling `MAX_RETRIES = 5` (a success at attempt 5 is still
returned), each retry delayed by exponential backoff bounded within
`[2, 30]` seconds, and once all 5 attempts are exhausted the failure is
re-raised to the worker, which skips the page with its whole state — in
particular `visited_pages` — unchanged, so that index is never added. -/
theorem terminal_vs_transient_fetch :
    MAX_RETRIES = 5 ∧
    (∀ responses : Nat → Nat × String, (responses 1).1 = 404 →
      fetch_view responses = .ok ("", 1)) ∧
    (∀ responses : Nat → Nat × String,
      (∀ a, 1 ≤ a → a ≤ MAX_RETRIES → (responses a).1 ≠ 404 ∧ (responses a).1 ≠ 200) →
      fetch_view responses = .error .failed_to_fetch) ∧
    (∀ (responses : Nat → Nat × String) (b : String),
      (∀ a, 1 ≤ a → a ≤ 4 → (responses a).1 ≠ 404 ∧ (responses a).1 ≠ 200) →
      responses 5 = (200, b) → fetch_view responses = .ok (b, 5)) ∧
    (∀ n, 1 ≤ n → 2 ≤ wait_delay n ∧ wait_delay n ≤ 30 ∧ wait_delay n ≤ wait_delay (n + 1)) ∧
    (∀ (env : Int → Nat → Nat × String) (parse : String → List (Option Rec))
        (st : WorkerState) (page : Int), parse "" = [] → (env page 1).1 = 404 →
      crawl env parse [page] st =
        ⟨st.rows, store_visited_page st.state page, st.total_reviews_scrapped⟩) ∧
    (∀ (env : Int → Nat → Nat × String) (parse : String → List (Option Rec))
        (st : WorkerState) (page : Int),
      (∀ a, 1 ≤ a → a ≤ MAX_RETRIES → (env page a).1 ≠ 404 ∧ (env page a).1 ≠ 200) →
      crawl env parse [page] st = st) :=
  ⟨rfl, fetch_view_404, fetch_view_exhausted, fetch_view_fifth_attempt, wait_delay_bounds,
    crawl_page_404, crawl_page_exhausted⟩

/-- Witness for C3: a page answering 404 yields `("", attempt 1)` and the
worker marks page 3 visited with nothing stored and the total unchanged;
a page always answering 503 exhausts the 5 attempts and leaves the worker
state untouched (page 3 not added to `visited_pages`). -/
theorem terminal_vs_transient_fetch_witness :
    fetch_view (fun _ => (404, "body")) = .ok ("", 1) ∧
    fetch_view (fun _ => (503, "oops")) = .error .failed_to_fetch ∧
    crawl (fun _ _ => (404, "body")) (fun _ => []) [3] ⟨[], ⟨some 9, [1]⟩, 2⟩ =
      ⟨[], ⟨some 9, [1, 3]⟩, 2⟩ ∧
    crawl (fun _ _ => (503, "oops")) (fun _ => []) [3] ⟨[], ⟨some 9, [1]⟩, 2⟩ =
      ⟨[], ⟨some 9, [1]⟩, 2⟩ := by
  refine ⟨terminal_vs_transient_fetch.2.1 _ rfl,
    terminal_vs_transient_fetch.2.2.1 _ (fun a _ _ => ⟨by decide, by decide⟩), ?_, ?_⟩
  · rw [terminal_vs_transient_fetch.2.2.2.2.2.1 (fun _ _ => (404, "body")) (fun _ => [])
      ⟨[], ⟨some 9, [1]⟩, 2⟩ 3 rfl rfl]
    rfl
  · exact terminal_vs_transient_fetch.2.2.2.2.2.2 (fun _ _ => (503, "oops")) (fun _ => [])
      ⟨[], ⟨some 9, [1]⟩, 2⟩ 3 (by intro a h1 h2; exact ⟨by simp, by simp⟩)

/-- The number of records extracted across a page list: per page, zero on
a fetch failure, else the number of records `_extract_reviews` produces
from the fetched content.  Mentions no persistence state at all. -/
def extracted_total (env : Int → Nat → Nat × String) (parse : String → List (Option Rec)) :
    List Int → Nat
  | [] => 0
  | page :: rest =>
      (match fetch_view (env page) with
       | .error _ => 0
       | .ok (html, _) => (extract_reviews (parse html)).length) + extracted_total env parse rest

/-- C10: `total_reviews_scrapped` counts extracted records, not stored
ones: after a run it has grown by exactly `extracted_total`, a quantity
computed from fetching and extraction alone — the increment happens
before persistence is attempted and is unaffected by `store_reviews`
rejecting records as duplicates (`ReviewAlreadyExists` is caught), so the
printed total includes records persistence rejected. -/
theorem crawl_total_counts_extracted (env : Int → Nat → Nat × String)
    (parse : String → List (Option Rec)) :
    ∀ (pages : List Int) (st : WorkerState),
      (crawl env parse pages st).total_reviews_scrapped
        = st.total_reviews_scrapped + extracted_total env parse pages := by
  intro pages
  induction pages with
  | nil => intro st; simp [crawl, extracted_total]
  | cons page rest ih =>
      intro st
      cases hf : fetch_view (env page) with
      | error e =>
          simp only [crawl, extracted_total, hf]
          rw [ih st]
          omega
      | ok pr =>
          obtain ⟨html, att⟩ := pr
          simp only [crawl, extracted_total, hf]
          rw [ih]
          simp only []
          omega

/-! ## Date resolver (`app/services/date_parser.py`, lines 25-66)

`parse_relative_date` resolves Ukrainian relative/absolute date text.
The `datetime` collaborator is modelled by what the function's control
flow depends on:
* `now` is its proleptic-Gregorian ordinal (`date.toordinal`, ordinal 1 =
  0001-01-01) plus its year;
* `now - timedelta(days=k)` raises `OverflowError` — uncaught here — when
  `k` exceeds `timedelta`'s limit of 999,999,999 days or when the result
  falls before ordinal 1;
* `datetime.date(y, m, d)` validates year, then month, then day, and only
  the day check raises `ValueError('day is out of range for month')` — the
  message the `while True` fallback loop matches on.
Python `re` patterns are compiled to explicit scans over the character
list (`\d` is modelled as ASCII digits, `str.split()` as splitting on
whitespace runs).  An uncaught exception is `.error ()`. -/

inductive PyDate where
  | ofOrdinal (n : Nat)
  | ymd (y : Int) (m d : Nat)
deriving DecidableEq, Repr

structure PyNow where
  ordinal : Nat
  year : Int
deriving DecidableEq, Repr

def TIMEDELTA_MAX_DAYS : Nat := 999999999

def minus_days (now : PyNow) (k : Nat) : Except Unit PyDate :=
  if TIMEDELTA_MAX_DAYS < k then .error ()
  else if now.ordinal ≤ k then .error ()
  else .ok (.ofOrdinal (now.ordinal - k))

def months_ua : List String :=
  ["січня", "лютого", "березня", "квітня", "травня", "червня", "липня",
   "серпня", "вересня", "жовтня", "листопада", "грудня"]

/-- Python's substring test `t in s`. -/
def has_sub : List Char → List Char → Bool
  | [], t => t.isEmpty
  | c :: rest, t => t.isPrefixOf (c :: rest) || has_sub rest t

def leading_digits (s : List Char) : List Char := s.takeWhile Char.isDigit

def digits_to_nat (ds : List Char) : Nat :=
  ds.foldl (fun n c => 10 * n + (c.toNat - 48)) 0

def rel_tail_matches (r : List Char) : Bool :=
  ("назад".data).isPrefixOf r || ("тому".data).isPrefixOf r

def rel_suffix_matches (rest2 : List Char) : Bool :=
  (("і ".data).isPrefixOf rest2 && rel_tail_matches (rest2.drop 2)) ||
  (("ів ".data).isPrefixOf rest2 && rel_tail_matches (rest2.drop 3)) ||
  (("я ".data).isPrefixOf rest2 && rel_tail_matches (rest2.drop 2))

/-- `re.match(r"(\d+) дн(?:і|ів|я) (назад|тому)", s)`: the matched day
count, when the pattern matches at the start of `s`. -/
def days_ago_match (s : List Char) : Option Nat :=
  let ds := leading_digits s
  if ds.isEmpty then none
  else if (" дн".data).isPrefixOf (s.drop ds.length) then
    if rel_suffix_matches ((s.drop ds.length).drop 3) then some (digits_to_nat ds)
    else none
  else none

/-- `re.match(r"(\d{1,2}) " + month, s)`: the day, when one or two leading
digits followed by a space and the month name open `s` (three or more
leading digits make every 1- or 2-digit backtrack hit a digit, so the
regex fails). -/
def month_day_match (s : List Char) (month : List Char) : Option Nat :=
  let ds := leading_digits s
  if ds.length = 0 ∨ 3 ≤ ds.length then none
  else if (' ' :: month).isPrefixOf (s.drop ds.length) then some (digits_to_nat ds)
  else none

/-- The `for month_ua, month_en in months.items()` loop: the first month
(in table order, 1-based index = month number) contained in `s` whose
day-prefix pattern also matches decides; a month contained without a
day match is skipped and the scan continues. -/
def find_month_go (s : List Char) : List String → Nat → Option (Nat × Nat)
  | [], _ => none
  | m :: rest, idx =>
      if has_sub s m.data then
        match month_day_match s m.data with
        | some d => some (d, idx)
        | none => find_month_go s rest (idx + 1)
      else find_month_go s rest (idx + 1)

def split_ws_go : List Char → List Char → List (List Char)
  | [], acc => if acc.isEmpty then [] else [acc.reverse]
  | c :: rest, acc =>
      if c.isWhitespace then
        if acc.isEmpty then split_ws_go rest []
        else acc.reverse :: split_ws_go rest []
      else split_ws_go rest (c :: acc)

/-- `str.split()`: whitespace-run split with no empty tokens. -/
def split_ws (s : List Char) : List (List Char) := split_ws_go s []

/-- `re.match(r"\d{4}", token)`. -/
def year4_match (tok : List Char) : Option Nat :=
  match tok with
  | a :: b :: c :: d :: _ =>
      if a.isDigit && b.isDigit && c.isDigit && d.isDigit then
        some (digits_to_nat [a, b, c, d])
      else none
  | _ => none

/-- `current_year`: the third whitespace token's leading 4-digit year when
`len(date_string.split()) == 3`, else `now.year`. -/
def year_of (now : PyNow) (s : List Char) : Int :=
  let toks := split_ws s
  if toks.length = 3 then
    match year4_match (toks.getD 2 []) with
    | some y => (y : Int)
    | none => now.year
  else now.year

def is_leap (y : Int) : Bool := y % 4 = 0 && (y % 100 != 0 || y % 400 = 0)

def days_in_month (y : Int) (m : Nat) : Nat :=
  if m = 2 then (if is_leap y then 29 else 28)
  else if m = 4 ∨ m = 6 ∨ m = 9 ∨ m = 11 then 30
  else 31

def MINYEAR : Int := 1

def MAXYEAR : Int := 9999

inductive DateErr where
  | day_range
  | other
deriving DecidableEq, Repr

/-- `datetime.date(y, m, d)`: CPython checks year, then month, then day;
only the day check raises `ValueError('day is out of range for month')`. -/
def mk_date (y : Int) (m d : Nat) : Except DateErr PyDate :=
  if MINYEAR ≤ y ∧ y ≤ MAXYEAR then
    if 1 ≤ m ∧ m ≤ 12 then
      if 1 ≤ d ∧ d ≤ days_in_month y m then .ok (.ymd y m d)
      else .error .day_range
    else .error .other
  else .error .other

/-- The `while True` fallback: retry `datetime.date` with `day - 1` while
the failure is 'day is out of range for month' and `day > 0`; any other
failure, or day 0, returns `None`.  The decreasing day is the loop's
termination measure. -/
def day_loop (y : Int) (m : Nat) : Nat → Option PyDate
  | 0 => none
  | d + 1 =>
      match mk_date y m (d + 1) with
      | .ok dt => some dt
      | .error .day_range => day_loop y m d
      | .error .other => none

def parse_relative_date (now : PyNow) (s0 : String) : Except Unit (Option PyDate) :=
  let s := s0.data
  if has_sub s ("сьогодні".data) then .ok (some (.ofOrdinal now.ordinal))
  else if has_sub s ("вчора".data) then (minus_days now 1).map some
  else
    match days_ago_match s with
    | some k => (minus_days now k).map some
    | none =>
        if has_sub s ("тиждень".data) then (minus_days now 7).map some
        else
          match find_month_go s months_ua 1 with
          | some (d, m) => .ok (day_loop (year_of now s) m d)
          | none => .ok none

def year_in_range (y : Int) : Bool := decide (MINYEAR ≤ y) && decide (y ≤ MAXYEAR)

/-- Whether some relative or absolute pattern of the resolver matches and
yields a date (given in-range day subtraction): used to state when the
resolver returns `None`. -/
def resolvable (now : PyNow) (s0 : String) : Bool :=
  let s := s0.data
  has_sub s ("сьогодні".data) || has_sub s ("вчора".data) ||
  (days_ago_match s).isSome || has_sub s ("тиждень".data) ||
  (match find_month_go s months_ua 1 with
   | some (d, _) => decide (1 ≤ d) && year_in_range (year_of now s)
   | none => false)

/-- C9 counterexample: the resolver is not total.  On
`"1000000000 днів тому"` the relative pattern matches with a day count
above `timedelta`'s 999,999,999-day limit, so
`now - datetime.timedelta(days=days_ago)` raises `OverflowError`, which
nothing catches: `parse_relative_date` propagates the exception instead
of returning `None`. -/
theorem parse_relative_date_raises_counterexample :
    parse_relative_date ⟨739536, 2026⟩ "1000000000 днів тому" = .error () ∧
    ∀ r, parse_relative_date ⟨739536, 2026⟩ "1000000000 днів тому" ≠ .ok r := by
  refine ⟨rfl, fun r h => ?_⟩
  rw [show parse_relative_date ⟨739536, 2026⟩ "1000000000 днів тому" = .error () from rfl] at h
  cases h

theorem find_month_go_idx (s : List Char) :
    ∀ (ms : List String) (i d m : Nat), find_month_go s ms i = some (d, m) →
      i ≤ m ∧ m < i + ms.length := by
  intro ms
  induction ms with
  | nil => intro i d m h; simp [find_month_go] at h
  | cons mo rest ih =>
      intro i d m h
      rw [find_month_go] at h
      by_cases hc : has_sub s mo.data = true
      · rw [if_pos hc] at h
        cases hd : month_day_match s mo.data with
        | some dd =>
            rw [hd] at h
            simp only [Option.some.injEq, Prod.mk.injEq] at h
            simp only [List.length_cons]
            omega
        | none =>
            rw [hd] at h
            have := ih (i + 1) d m h
            simp only [List.length_cons]
            omega
      · rw [if_neg hc] at h
        have := ih (i + 1) d m h
        simp only [List.length_cons]
        omega

theorem days_in_month_pos (y : Int) (m : Nat) : 1 ≤ days_in_month y m := by
  unfold days_in_month
  split_ifs <;> omega

theorem day_loop_isSome (y : Int) (m : Nat) (hy : MINYEAR ≤ y ∧ y ≤ MAXYEAR)
    (hm : 1 ≤ m ∧ m ≤ 12) : ∀ d, 1 ≤ d → (day_loop y m d).isSome = true := by
  intro d
  induction d with
  | zero => intro h; omega
  | succ n ih =>
      intro _
      rw [day_loop]
      by_cases hd : n + 1 ≤ days_in_month y m
      · have hmk : mk_date y m (n + 1) = .ok (.ymd y m (n + 1)) := by
          unfold mk_date
          rw [if_pos hy, if_pos hm, if_pos ⟨by omega, hd⟩]
        rw [hmk]
        rfl
      · have hmk : mk_date y m (n + 1) = .error .day_range := by
          unfold mk_date
          rw [if_pos hy, if_pos hm, if_neg (by omega)]
        rw [hmk]
        have hdim := days_in_month_pos y m
        exact ih (by omega)

theorem day_loop_none_of_bad_year (y : Int) (m : Nat)
    (hy : ¬ (MINYEAR ≤ y ∧ y ≤ MAXYEAR)) : ∀ d, day_loop y m d = none := by
  intro d
  induction d with
  | zero => rfl
  | succ n ih =>
      rw [day_loop]
      have hmk : mk_date y m (n + 1) = .error .other := by
        unfold mk_date
        rw [if_neg hy]
      rw [hmk]

theorem minus_days_ok (now : PyNow) (k : Nat)
    (h1 : k ≤ TIMEDELTA_MAX_DAYS) (h2 : k < now.ordinal) :
    minus_days now k = .ok (.ofOrdinal (now.ordinal - k)) := by
  unfold minus_days
  rw [if_neg (by omega), if_neg (by omega)]

/-- C9 (amended): `parse_relative_date` terminates without raising — in
particular the day-decrement loop terminates, e.g. `"31 червня 2024"`
resolves to 2024-06-30 — and returns `None` exactly when no relative or
absolute pattern resolves, PROVIDED any matched "N days ago" count stays
within `timedelta`'s 999,999,999-day limit and strictly below `now`'s
ordinal (and `now` is at least a week past the calendar origin, so the
`вчора`/`тиждень` subtractions stay in range).  Outside that proviso the
relative-day subtraction raises an uncaught `OverflowError` (see the
counterexample). -/
theorem parse_relative_date_total (now : PyNow) (s : String)
    (hdays : ∀ k, days_ago_match s.data = some k →
      k ≤ TIMEDELTA_MAX_DAYS ∧ k < now.ordinal)
    (hnow : 8 ≤ now.ordinal) :
    (∃ r, parse_relative_date now s = .ok r) ∧
    (parse_relative_date now s = .ok none ↔ resolvable now s = false) := by
  unfold parse_relative_date resolvable
  cases h1 : has_sub s.data ("сьогодні".data) with
  | true => simp [h1]
  | false =>
  cases h2 : has_sub s.data ("вчора".data) with
  | true =>
      have hm := minus_days_ok now 1 (by unfold TIMEDELTA_MAX_DAYS; omega) (by omega)
      simp [h1, h2, hm, Except.map]
  | false =>
  cases h3 : days_ago_match s.data with
  | some k =>
      have hk := hdays k h3
      have hm := minus_days_ok now k hk.1 hk.2
      simp [h1, h2, h3, hm, Except.map]
  | none =>
  cases h4 : has_sub s.data ("тиждень".data) with
  | true =>
      have hm := minus_days_ok now 7 (by unfold TIMEDELTA_MAX_DAYS; omega) (by omega)
      simp [h1, h2, h3, h4, hm, Except.map]
  | false =>
  cases h5 : find_month_go s.data months_ua 1 with
  | none => simp [h1, h2, h3, h4, h5]
  | some dm =>
      obtain ⟨d, m⟩ := dm
      have hmidx := find_month_go_idx s.data months_ua 1 d m h5
      have hm12 : 1 ≤ m ∧ m ≤ 12 := by
        have hlen : months_ua.length = 12 := rfl
        omega
      simp only [h1, h2, h3, h4, h5, Bool.false_eq_true, if_false, Bool.false_or]
      refine ⟨⟨day_loop (year_of now s.data) m d, rfl⟩, ?_⟩
      simp only [Except.ok.injEq]
      by_cases hy : MINYEAR ≤ year_of now s.data ∧ year_of now s.data ≤ MAXYEAR
      · by_cases hd : 1 ≤ d
        · have hs := day_loop_isSome (year_of now s.data) m hy hm12 d hd
          have h6 : day_loop (year_of now s.data) m d ≠ none := by
            intro hc
            rw [hc] at hs
            cases hs
          have h7 : (decide (1 ≤ d) && year_in_range (year_of now s.data)) = true := by
            unfold year_in_range
            rw [Bool.and_eq_true, Bool.and_eq_true]
            exact ⟨decide_eq_true hd, decide_eq_true hy.1, decide_eq_true hy.2⟩
          rw [h7]
          constructor
          · intro hc
            exact absurd hc h6
          · intro hc
            cases hc
        · have hd0 : d = 0 := by omega
          subst hd0
          simp [day_loop]
      · have hn := day_loop_none_of_bad_year (year_of now s.data) m hy d
        have h7 : year_in_range (year_of now s.data) = false := by
          unfold year_in_range
          rcases not_and_or.mp hy with h | h
          · simp [decide_eq_false h]
          · simp [decide_eq_false h]
        simp [hn, h7]

/-- Witness for C9 on `"31 червня 2024"` (day out of range, loop falls
back to June 30) with `now` at ordinal 739536 in year 2026: the resolver
returns the date without raising, and the `None`-iff holds with its
hypotheses discharged. -/
theorem parse_relative_date_total_witness :
    parse_relative_date ⟨739536, 2026⟩ "31 червня 2024" = .ok (some (.ymd 2024 6 30)) ∧
    resolvable ⟨739536, 2026⟩ "31 червня 2024" = true ∧
    (parse_relative_date ⟨739536, 2026⟩ "31 червня 2024" = .ok none ↔
      resolvable ⟨739536, 2026⟩ "31 червня 2024" = false) := by
  refine ⟨rfl, rfl, ?_⟩
  exact (parse_relative_date_total ⟨739536, 2026⟩ "31 червня 2024"
    (fun k hk => absurd hk (by intro h; cases h)) (by decide)).2
